import Mathlib

/-!
Verification of the PhishScan signal-scoring and feed-caching pipeline.

This file gives a shallow embedding, in Lean 4, of the core functions of the
PhishScan repository and proves (or refutes) the specified properties about
them.  Python floats are modelled as rationals (ℚ), Python strings as
`List Char` (the embedding is faithful for ASCII data, which is what every
concrete input below uses), Python dicts used as indices as functions
`String → Option _`, and file-system state as explicit state records.
-/

namespace PhishScan

/-! ### Shared numeric helpers

`clamp01 x` models the Python idiom `max(0.0, min(1.0, x))` used throughout
`api.py` and `app/scanner.py`. -/

def clamp01 (x : ℚ) : ℚ := max 0 (min 1 x)

/-- Python's built-in `round` with no `ndigits`: round half to even,
returning an integer. -/
def pyRound (q : ℚ) : ℤ :=
  let f := ⌊q⌋
  if q - f < 1/2 then f
  else if (1 : ℚ)/2 < q - f then f + 1
  else if 2 ∣ f then f else f + 1

namespace Api

/-!  Embedding of `src/phishscan/api.py`. -/

/-- `api.py` lines 196-206: normalize a present numeric heuristic score to
[0,1] (`if hs > 1.0: max(0,min(1,hs/100)) else max(0,min(1,hs))`). -/
def normalizeHeuristic (hs : ℚ) : ℚ :=
  if 1 < hs then clamp01 (hs / 100) else clamp01 hs

/-- `api.py` lines 196-206: `h_norm` is `None` exactly when no numeric
heuristic score is available. -/
def hNormOf (heuristicScore : Option ℚ) : Option ℚ :=
  heuristicScore.map normalizeHeuristic

/-- `api.py` lines 215-219: the two-signal combination.  With a heuristic
present, `combined = max(0.0, min(1.0, w_ml*prob + w_h*h_norm))`; with
`h_norm is None`, `combined = float(prob)`. -/
def combineTwoSignal (wMl wH prob : ℚ) (hNorm : Option ℚ) : ℚ :=
  match hNorm with
  | some h => clamp01 (wMl * prob + wH * h)
  | none => prob

/-- The `/predict` combined probability as a function of the ML probability
and the optional raw heuristic score (`api.py` lines 196-219). -/
def predictCombined (wMl wH prob : ℚ) (heuristicScore : Option ℚ) : ℚ :=
  combineTwoSignal wMl wH prob (hNormOf heuristicScore)

/-- `api.py` line 223: `'phishing' if combined >= threshold else 'legitimate'`. -/
def predictLabel (combined threshold : ℚ) : String :=
  if combined ≥ threshold then "phishing" else "legitimate"

/-- `api.py` lines 248-255 (`/config/threshold` POST): accept `t` only when
`0.0 <= t <= 1.0`; otherwise report a validation error.  The result is the
new stored threshold on success. -/
def setThreshold (_current t : ℚ) : Except String ℚ :=
  if 0 ≤ t ∧ t ≤ 1 then Except.ok t else Except.error "invalid threshold"

/-- The module-level `PHISHSCAN_THRESHOLD` after a POST: unchanged when the
validation fails, the new value when it succeeds. -/
def thresholdAfter (current t : ℚ) : ℚ :=
  match setThreshold current t with
  | Except.ok v => v
  | Except.error _ => current

end Api

namespace Scanner

/-!  Embedding of `src/phishscan/app/scanner.py` (the five-signal mode). -/

/-- `scanner.py` lines 26-37: the heuristic score is coerced to a number,
rescaled to 0..100 if it looks like a 0..1 value, clamped to [0,100] and
stored as `int(round(hs))`. -/
def heuristicScore100 (raw : ℚ) : ℤ :=
  let hs := if raw ≤ 1 then clamp01 raw * 100 else max 0 (min 100 raw)
  pyRound hs

/-- `scanner.py` lines 73-81: the fixed-coefficient five-signal combination
`0.30*h_norm + 0.15*ssl_risk + 0.15*html_risk + 0.20*ml_prob + 0.20*feed_hit`,
where `html_risk` and `feed_hit` are 0/1 indicators and `h_norm` is the
normalized heuristic score divided by 100. -/
def scanCombined (heurRaw ssl ml : ℚ) (htmlHit feedHit : Bool) : ℚ :=
  let hNorm : ℚ := (heuristicScore100 heurRaw : ℚ) / 100
  0.30 * hNorm + 0.15 * ssl + 0.15 * (if htmlHit then 1 else 0)
    + 0.20 * ml + 0.20 * (if feedHit then 1 else 0)

/-- `scanner.py` line 83: `"phishing" if final_risk >= 0.6 else "legitimate"`
(a fixed cut, not the runtime-configurable threshold). -/
def scanLabel (finalRisk : ℚ) : String :=
  if finalRisk ≥ 0.6 then "phishing" else "legitimate"

end Scanner

namespace Url

/-!  Embedding of the behavior of `urllib.parse.urlsplit`/`urlparse`
(CPython) on ASCII inputs, together with the Python string helpers the
canonicalizers use.  Python strings are modelled as `List Char`. -/

/-- Characters allowed in a URL scheme (`scheme_chars` in `urllib.parse`). -/
def schemeChar (c : Char) : Bool :=
  c.isAlpha || c.isDigit || c == '+' || c == '-' || c == '.'

/-- Characters that terminate the network-location part (`'/?#'`). -/
def netlocDelim (c : Char) : Bool := c == '/' || c == '?' || c == '#'

/-- Python `s.split(sep, 1)`: `none` when `sep` does not occur, otherwise
the parts before and after the first occurrence. -/
def splitOnce (sep : Char) : List Char → Option (List Char × List Char)
  | [] => none
  | c :: rest =>
    if c = sep then some ([], rest)
    else
      match splitOnce sep rest with
      | some (a, b) => some (c :: a, b)
      | none => none

/-- Python `s.lower()` on ASCII text. -/
def lowerStr (s : List Char) : List Char := s.map Char.toLower

/-- The ASCII-range characters Python `str.strip()` removes. -/
def isPySpace (c : Char) : Bool :=
  c == ' ' || c == '\t' || c == '\n' || c == '\r' ||
    c.toNat == 11 || c.toNat == 12 || (28 ≤ c.toNat && c.toNat ≤ 31)

/-- Python `s.strip()` on ASCII text. -/
def pyStrip (s : List Char) : List Char :=
  ((s.dropWhile isPySpace).reverse.dropWhile isPySpace).reverse

/-- Python `s.rstrip('/')`: removes every trailing slash. -/
def rstripSlash (s : List Char) : List Char :=
  (s.reverse.dropWhile (fun c => c == '/')).reverse

/-- Python `s.endswith('/')`. -/
def endsWithSlash (s : List Char) : Bool :=
  match s.getLast? with
  | some c => c == '/'
  | none => false

/-- Python `pat in s` (substring containment). -/
def strContains (pat : List Char) : List Char → Bool
  | [] => pat.isEmpty
  | c :: rest => pat.isPrefixOf (c :: rest) || strContains pat rest

/-- The fields of a `urlparse` result that the code reads. -/
structure ParseResult where
  scheme : List Char
  netloc : List Char
  path : List Char
  query : List Char
  fragment : List Char
deriving DecidableEq

def headIsAlpha : List Char → Bool
  | [] => false
  | c :: _ => c.isAlpha

/-- Scheme recognition in `urlsplit`: the text before the first `:` must
be nonempty, start with an (ASCII) letter and consist only of scheme
characters; the recognized scheme is lowercased and removed. -/
def splitSchemePy (url : List Char) : List Char × List Char :=
  match splitOnce ':' url with
  | none => ([], url)
  | some (before, after) =>
    if headIsAlpha before && before.all schemeChar then (lowerStr before, after)
    else ([], url)

/-- Netloc extraction in `urlsplit`: only when the remainder starts with
`//`; the netloc runs up to the first `/`, `?` or `#`. -/
def splitNetlocPy : List Char → List Char × List Char
  | '/' :: '/' :: rest =>
    (rest.takeWhile (fun c => !netlocDelim c), rest.dropWhile (fun c => !netlocDelim c))
  | url => ([], url)

/-- `urllib.parse.urlsplit` on ASCII inputs: scheme, then `//netloc`, then
the fragment after the first `#`, then the query after the first `?`. -/
def urlsplitPy (url : List Char) : ParseResult :=
  let s := splitSchemePy url
  let n := splitNetlocPy s.2
  let f :=
    match splitOnce '#' n.2 with
    | some (a, b) => (a, b)
    | none => (n.2, ([] : List Char))
  let q :=
    match splitOnce '?' f.1 with
    | some (a, b) => (a, b)
    | none => (f.1, ([] : List Char))
  ⟨s.1, n.1, q.1, q.2, f.2⟩

/-- The schemes for which `urlparse` splits `;parameters` off the path
(`uses_params`), including the empty scheme. -/
def usesParams : List (List Char) :=
  [[], "ftp".data, "hdl".data, "prospero".data, "http".data, "imap".data,
    "https".data, "shttp".data, "rtsp".data, "rtspu".data, "sip".data,
    "sips".data, "mms".data, "sftp".data, "tel".data]

/-- Split a list at its last `'/'`: `some (a, b)` with `l = a ++ '/' :: b`
and `b` slash-free, or `none` when there is no slash. -/
def lastSlashSplit : List Char → Option (List Char × List Char)
  | [] => none
  | c :: rest =>
    match lastSlashSplit rest with
    | some (a, b) => some (c :: a, b)
    | none => if c = '/' then some ([], rest) else none

/-- `_splitparams` restricted to the path: `url.find(';', url.rfind('/'))`
searches for `;` only after the last `/` (in the whole string when there
is no `/`); everything from that `;` on is dropped.  The caller guards on
`';' in path`, under which the no-slash search always succeeds. -/
def splitParamsPath (p : List Char) : List Char :=
  match lastSlashSplit p with
  | some (a, b) =>
    match splitOnce ';' b with
    | some (b1, _) => a ++ '/' :: b1
    | none => p
  | none =>
    match splitOnce ';' p with
    | some (p1, _) => p1
    | none => p

/-- `urllib.parse.urlparse` on ASCII inputs: `urlsplit` plus the parameter
split on the path for `uses_params` schemes. -/
def urlparsePy (url : List Char) : ParseResult :=
  let r := urlsplitPy url
  if r.scheme ∈ usesParams ∧ ';' ∈ r.path then { r with path := splitParamsPath r.path }
  else r

/-- The part of `t` before the first `sep` (all of `t` when absent); a view
of `urlsplit`'s fragment and query splits used to reason about them. -/
def cutAt (sep : Char) (t : List Char) : List Char :=
  match splitOnce sep t with
  | some (a, _) => a
  | none => t

/-- The part of `t` after the first `sep` (empty when absent). -/
def restAt (sep : Char) (t : List Char) : List Char :=
  match splitOnce sep t with
  | some (_, b) => b
  | none => []

/-- The path `urlsplit` assigns, as a function of the text after the
netloc: drop the fragment, then keep what precedes the first `?`. -/
def pathPart (t : List Char) : List Char := cutAt '?' (cutAt '#' t)

/-- The query `urlsplit` assigns: what follows the first `?` of the
fragment-stripped text. -/
def queryPart (t : List Char) : List Char := restAt '?' (cutAt '#' t)

/-- The fragment `urlsplit` assigns. -/
def fragPart (t : List Char) : List Char := restAt '#' t

/-- The shape of every canonicalizer output:
`scheme://netloc path [?query]`. -/
def renderUrl (s n p q : List Char) : List Char :=
  s ++ "://".data ++ n ++ p ++ (if q = [] then [] else '?' :: q)

end Url

namespace ThreatIntel

/-!  Embedding of `src/app/threat_intel.py`. -/

/-- Lines 86-88 of `normalize_url`: `if path.endswith('/'): path =
path.rstrip('/')`. -/
def stripPathSlash (p : List Char) : List Char :=
  if Url.endsWithSlash p then Url.rstripSlash p else p

/-- `threat_intel.normalize_url`: lowercase scheme (default `http`) and
netloc, strip trailing slashes from the path, drop params and fragment,
keep a nonempty query after `?`. -/
def normalize_url (url : List Char) : List Char :=
  let p := Url.urlparsePy (Url.pyStrip url)
  let scheme := if p.scheme = [] then "http".data else Url.lowerStr p.scheme
  let netloc := Url.lowerStr p.netloc
  let path := stripPathSlash p.path
  scheme ++ "://".data ++ netloc ++ path ++ (if p.query = [] then [] else '?' :: p.query)

/-- `CACHE_TTL_SECONDS = 24 * 3600`. -/
def CACHE_TTL_SECONDS : ℤ := 24 * 3600

/-- A PhishTank feed entry as read by `check_threat_feeds`: its optional
`url` field plus opaque metadata distinguishing entries. -/
structure Entry where
  url : Option (List Char) := none
  meta : Nat := 0
deriving DecidableEq

/-- The cache file: `none` when missing, otherwise its modification time
and the entries it holds. -/
structure CacheState where
  file : Option (ℤ × List Entry)
deriving DecidableEq

/-- The `do_download` condition of `update_phishtank_feed` (lines 41-50):
the cache file is missing, or its age exceeds `CACHE_TTL_SECONDS`. -/
def cacheIsStale (st : CacheState) (now : ℤ) : Bool :=
  match st.file with
  | none => true
  | some (mtime, _) => now - mtime > CACHE_TTL_SECONDS

/-- `update_phishtank_feed` (lines 35-62): download only when stale; a
successful download rewrites the cache file (so its mtime becomes `now`);
a failed download is caught and leaves the file untouched. -/
def update_phishtank_feed (st : CacheState) (now : ℤ)
    (fetch : Option (List Entry)) : CacheState :=
  if cacheIsStale st now then
    match fetch with
    | some entries => ⟨some (now, entries)⟩
    | none => st
  else st

/-- The linear scan of `check_threat_feeds` (lines 126-142): the first
entry whose normalized `url` field equals the normalized query URL. -/
def scanEntries (norm : List Char) : List Entry → Option Entry
  | [] => none
  | e :: rest =>
    match e.url with
    | none => scanEntries norm rest
    | some u =>
      if u = [] then scanEntries norm rest
      else if normalize_url u = norm then some e
      else scanEntries norm rest

/-- The fields of a `check_threat_feeds` result the spec talks about. -/
structure CheckResult where
  found : Bool
  feed : Option String
  entry : Option Entry
  explanation : String
deriving DecidableEq

/-- `check_threat_feeds` (lines 97-151): refresh the cache (best effort),
then look the URL up in whatever the cache file now holds. -/
def check_threat_feeds (st : CacheState) (now : ℤ) (fetch : Option (List Entry))
    (url : List Char) : CacheState × CheckResult :=
  let st1 := update_phishtank_feed st now fetch
  match st1.file with
  | none => (st1, ⟨false, none, none, "Feed not available"⟩)
  | some (_, entries) =>
    match scanEntries (normalize_url url) entries with
    | some e =>
      (st1, ⟨true, some "PhishTank", some e, "URL found in PhishTank online-valid feed"⟩)
    | none => (st1, ⟨false, none, none, "URL not found in PhishTank feed"⟩)

end ThreatIntel

namespace FeedUpdater

/-!  Embedding of `src/phishscan/feed_updater.py`. -/

/-- `feed_updater.normalize_url`: prepend `http://` when `://` is absent,
then lowercase scheme and netloc, strip all trailing slashes from the
path, keep a nonempty query after `?`. -/
def normalize_url (url : List Char) : List Char :=
  let url1 := Url.pyStrip url
  let url2 := if Url.strContains "://".data url1 then url1 else "http://".data ++ url1
  let p := Url.urlparsePy url2
  Url.lowerStr p.scheme ++ "://".data ++ Url.lowerStr p.netloc ++ Url.rstripSlash p.path
    ++ (if p.query = [] then [] else '?' :: p.query)

/-- A PhishTank entry as consumed by `build_index`: the optional `url` and
`phish_url` fields plus opaque metadata distinguishing entries. -/
structure PTEntry where
  url : Option (List Char) := none
  phishUrl : Option (List Char) := none
  meta : Nat := 0
deriving DecidableEq

/-- Python `a or b` for optional strings (`None` and `""` are falsy). -/
def pyOrStr (a : Option (List Char)) (b : List Char) : List Char :=
  match a with
  | some s => if s = [] then b else s
  | none => b

/-- `build_index` line 98: `e.get("url") or e.get("phish_url") or ""`. -/
def ptUrl (e : PTEntry) : List Char := pyOrStr e.url (pyOrStr e.phishUrl [])

/-- A value of the merged index (`{"feed": ..., "entry": ...}`). -/
inductive IndexValue where
  | phishTank (e : PTEntry)
  | openPhish (url : List Char)
deriving DecidableEq

/-- The index is a Python dict keyed by normalized URL. -/
def Index := List Char → Option IndexValue

def emptyIndex : Index := fun _ => none

/-- Python dict assignment `index[k] = v`. -/
def idxInsert (m : Index) (k : List Char) (v : IndexValue) : Index :=
  fun x => if x = k then some v else m x

/-- One step of the first loop of `build_index`: a PhishTank entry is
skipped when it carries no URL, otherwise written unconditionally (later
entries overwrite earlier ones at the same key). -/
def ptStep (m : Index) (e : PTEntry) : Index :=
  let url := ptUrl e
  if url = [] then m else idxInsert m (normalize_url url) (IndexValue.phishTank e)

/-- One step of the second loop of `build_index`: an OpenPhish line is
inserted only when its normalized URL is absent (`if norm not in index`). -/
def opStep (m : Index) (u : List Char) : Index :=
  let n := normalize_url u
  if (m n).isSome then m else idxInsert m n (IndexValue.openPhish u)

def buildPrimary (phishtankEntries : List PTEntry) : Index :=
  phishtankEntries.foldl ptStep emptyIndex

/-- `feed_updater.build_index` (lines 94-111). -/
def build_index (phishtankEntries : List PTEntry)
    (openphishLines : List (List Char)) : Index :=
  openphishLines.foldl opStep (buildPrimary phishtankEntries)

end FeedUpdater

namespace Heuristics

/-!  Embedding of `src/app/heuristics.py` (the canonical rule table). -/

def MAX_LENGTH_SUSPICIOUS : ℕ := 75

def SPECIAL_CHAR_THRESHOLDS : List (Char × ℕ) :=
  [('-', 4), ('_', 4), ('@', 1), ('?', 2), ('=', 2), ('%', 2)]

def SUSPICIOUS_KEYWORDS : List (List Char) :=
  ["login", "signin", "verify", "update", "secure", "account", "bank",
    "paypal", "password", "confirm", "ebay", "amazon", "appleid",
    "billing"].map String.data

/-- `_ensure_scheme`'s regex test `^[a-zA-Z]+://`. -/
def hasSchemeMark (url : List Char) : Bool :=
  let a := url.takeWhile Char.isAlpha
  !a.isEmpty && "://".data.isPrefixOf (url.drop a.length)

/-- `_ensure_scheme`. -/
def ensure_scheme (url : List Char) : List Char :=
  if hasSchemeMark url then url else "http://".data ++ url

/-- Python `s.split(sep)` (split on every occurrence; `"" → [""]`). -/
def splitAll (sep : Char) : List Char → List (List Char)
  | [] => [[]]
  | c :: rest =>
    let r := splitAll sep rest
    if c = sep then [] :: r
    else
      match r with
      | h :: t => (c :: h) :: t
      | [] => [[c]]

/-- Python `int` of a digit string. -/
def strToNat (s : List Char) : ℕ := s.foldl (fun n c => 10 * n + (c.toNat - 48)) 0

/-- `_is_ip_domain`: strip credentials (`user:pass@`) and the port, then
check for a dotted quad with each octet a digit string in [0,255]. -/
def is_ip_domain (netloc : List Char) : Bool :=
  let host0 :=
    match Url.splitOnce '@' netloc with
    | some (_, rest) => rest
    | none => netloc
  let host := host0.takeWhile (fun c => c != ':')
  let parts := splitAll '.' host
  parts.length == 4 &&
    parts.all (fun p => !p.isEmpty && p.all Char.isDigit && strToNat p ≤ 255)

/-- `_subdomain_depth`: `max(0, len(host.rstrip('.').split('.')) - 2)`. -/
def subdomain_depth (host : List Char) : ℕ :=
  let h := (host.reverse.dropWhile (fun c => c == '.')).reverse
  (splitAll '.' h).length - 2

/-- Hex digit value, for `unquote`. -/
def hexVal (c : Char) : Option ℕ :=
  if '0' ≤ c ∧ c ≤ '9' then some (c.toNat - 48)
  else if 'a' ≤ c ∧ c ≤ 'f' then some (c.toNat - 87)
  else if 'A' ≤ c ∧ c ≤ 'F' then some (c.toNat - 55)
  else none

/-- `urllib.parse.unquote` restricted to ASCII percent-escapes: `%XX` with
two hex digits decodes to the character with that code; a `%` not followed
by two hex digits is kept verbatim. -/
def pyUnquote : List Char → List Char
  | [] => []
  | '%' :: a :: b :: rest =>
    match hexVal a, hexVal b with
    | some x, some y => Char.ofNat (16 * x + y) :: pyUnquote rest
    | _, _ => '%' :: pyUnquote (a :: b :: rest)
  | c :: rest => c :: pyUnquote rest

/-- Python `s.index(pat)`: index of the first occurrence (`s.length` when
absent, which the uses below never hit). -/
def strIndex (pat : List Char) : List Char → ℕ
  | [] => 0
  | c :: rest => if pat.isPrefixOf (c :: rest) then 0 else strIndex pat rest + 1

/-- Stable insertion by key (Python `sorted` is a stable sort). -/
def insertByKey (key : List Char → ℕ) (a : List Char) :
    List (List Char) → List (List Char)
  | [] => [a]
  | b :: t => if key b < key a then b :: insertByKey key a t else a :: b :: t

def sortByKey (key : List Char → ℕ) : List (List Char) → List (List Char)
  | [] => []
  | a :: t => insertByKey key a (sortByKey key t)

/-- `_find_keywords`: the suspicious keywords contained in the decoded,
lowercased string, ordered by first occurrence. -/
def find_keywords (s0 : List Char) : List (List Char) :=
  let s := Url.lowerStr (pyUnquote s0)
  sortByKey (fun kw => strIndex kw s)
    (SUSPICIOUS_KEYWORDS.filter (fun kw => Url.strContains kw s))

/-- The fields of an `analyze_url` report the claims talk about. -/
structure Report where
  lengthSuspicious : Bool
  specialSuspicious : Bool
  ipInDomain : Bool
  subdomainSuspicious : Bool
  keywordsFound : List (List Char)
  score : ℕ
  final_verdict : String
deriving DecidableEq

/-- `heuristics.analyze_url` (lines 76-218): the five rules, the weighted
score clamped to [0,100] with the keyword weight proportional to the
number of distinct keywords found (capped at 20), and the final verdict
thresholds 60 (`Likely Phishing`) and 30 (`Suspicious — Review`). -/
def analyze_url (url : List Char) : Report :=
  let parsed := Url.urlparsePy (ensure_scheme url)
  let host := parsed.netloc
  let pathAndQuery := parsed.path ++ (if parsed.query = [] then [] else '?' :: parsed.query)
  let full := host ++ pathAndQuery
  let lengthSusp := decide (MAX_LENGTH_SUSPICIOUS < url.length)
  let specialSusp := SPECIAL_CHAR_THRESHOLDS.any (fun pr => decide (pr.2 < full.count pr.1))
  let ip := is_ip_domain host
  let sdSusp := decide (3 < subdomain_depth host)
  let kws := find_keywords full
  let kwScore := min 20 (10 * kws.length)
  let score0 :=
    (if lengthSusp then 20 else 0) + (if specialSusp then 20 else 0) +
      (if ip then 25 else 0) + (if sdSusp then 15 else 0) + kwScore
  let score := min 100 score0
  let verdict :=
    if 60 ≤ score then "Likely Phishing"
    else if 30 ≤ score then "Suspicious — Review"
    else "Likely Safe"
  ⟨lengthSusp, specialSusp, ip, sdSusp, kws, score, verdict⟩

end Heuristics

end PhishScan

namespace PhishScan

/-! ### Lemmas about the numeric helpers -/

theorem clamp01_nonneg (x : ℚ) : 0 ≤ clamp01 x := le_max_left _ _

theorem clamp01_le_one (x : ℚ) : clamp01 x ≤ 1 :=
  max_le (by norm_num) (min_le_left _ _)

theorem pyRound_nonneg (q : ℚ) (h : 0 ≤ q) : 0 ≤ pyRound q := by
  unfold pyRound
  have hf : (0 : ℤ) ≤ ⌊q⌋ := Int.floor_nonneg.mpr h
  dsimp only
  split
  · exact hf
  · split
    · omega
    · split
      · exact hf
      · omega

theorem pyRound_le_of_le (q : ℚ) (n : ℤ) (h : q ≤ (n : ℚ)) : pyRound q ≤ n := by
  unfold pyRound
  have hf : ⌊q⌋ ≤ n := by
    calc ⌊q⌋ ≤ ⌊(n : ℚ)⌋ := Int.floor_le_floor h
    _ = n := Int.floor_intCast n
  have hlt : (1 : ℚ)/2 ≤ q - ⌊q⌋ → ⌊q⌋ + 1 ≤ n := by
    intro hr
    have h1 : (⌊q⌋ : ℚ) + 1/2 ≤ q := by linarith
    have h2 : (⌊q⌋ : ℚ) < (n : ℚ) := by linarith
    have : ⌊q⌋ < n := by exact_mod_cast h2
    omega
  dsimp only
  split
  · exact hf
  · next h1 =>
    split
    · next h2 => exact hlt (le_of_lt h2)
    · split
      · exact hf
      · exact hlt (le_of_not_lt h1)

theorem heuristicScore100_bounds (raw : ℚ) :
    0 ≤ Scanner.heuristicScore100 raw ∧ Scanner.heuristicScore100 raw ≤ 100 := by
  unfold Scanner.heuristicScore100
  set hs := if raw ≤ 1 then clamp01 raw * 100 else max 0 (min 100 raw) with hhs
  have h0 : 0 ≤ hs := by
    rw [hhs]; split
    · exact mul_nonneg (clamp01_nonneg _) (by norm_num)
    · exact le_max_left _ _
  have h1 : hs ≤ 100 := by
    rw [hhs]; split
    · have := clamp01_le_one raw; nlinarith
    · exact max_le (by norm_num) (min_le_left _ _)
  exact ⟨pyRound_nonneg hs h0, pyRound_le_of_le hs 100 (by exact_mod_cast h1)⟩

/-! ### List helper lemmas -/

theorem dropWhile_all_false {p : Char → Bool} {l : List Char}
    (h : ∀ c ∈ l, p c = false) : l.dropWhile p = l := by
  cases l with
  | nil => rfl
  | cons c t => simp [List.dropWhile_cons, h c (List.mem_cons_self c t)]

theorem takeWhile_append_all {p : Char → Bool} {a : List Char} (b : List Char)
    (h : ∀ c ∈ a, p c = true) : (a ++ b).takeWhile p = a ++ b.takeWhile p := by
  induction a with
  | nil => simp
  | cons c t ih =>
    simp [List.cons_append, List.takeWhile_cons, h c (by simp)]
    rw [ih (fun x hx => h x (by simp [hx]))]

theorem dropWhile_append_all {p : Char → Bool} {a : List Char} (b : List Char)
    (h : ∀ c ∈ a, p c = true) : (a ++ b).dropWhile p = b.dropWhile p := by
  induction a with
  | nil => simp
  | cons c t ih =>
    simp only [List.cons_append, List.dropWhile_cons, h c (by simp)]
    exact ih (fun x hx => h x (by simp [hx]))

theorem head?_dropWhile_false (p : Char → Bool) (l : List Char) :
    ∀ c, (l.dropWhile p).head? = some c → p c = false := by
  induction l with
  | nil => intro c h; simp [List.dropWhile] at h
  | cons a t ih =>
    intro c h
    rw [List.dropWhile_cons] at h
    by_cases hp : p a = true
    · rw [if_pos hp] at h; exact ih c h
    · rw [if_neg hp] at h
      simp only [List.head?_cons, Option.some.injEq] at h
      subst h
      exact Bool.eq_false_iff.mpr hp

/-! ### Lemmas about the slash-stripping step of the canonicalizers -/

theorem endsWithSlash_iff (s : List Char) :
    Url.endsWithSlash s = true ↔ s.getLast? = some '/' := by
  unfold Url.endsWithSlash
  cases h : s.getLast? with
  | none => simp
  | some c => simp [beq_iff_eq]

theorem rstripSlash_not_endsWith (s : List Char) :
    Url.endsWithSlash (Url.rstripSlash s) = false := by
  rw [Bool.eq_false_iff]
  intro hend
  have hlast := (endsWithSlash_iff _).mp hend
  unfold Url.rstripSlash at hlast
  rw [List.getLast?_reverse] at hlast
  have := head?_dropWhile_false (fun c => c == '/') s.reverse '/' hlast
  simp at this

theorem rstripSlash_eq_self (s : List Char) (h : Url.endsWithSlash s = false) :
    Url.rstripSlash s = s := by
  cases hr : s.reverse with
  | nil =>
    have hs : s = [] := by simpa using congrArg List.reverse hr
    subst hs; rfl
  | cons c t =>
    have hc : s.getLast? = some c := by
      rw [← List.head?_reverse, hr, List.head?_cons]
    have hcne : ¬ c = '/' := by
      intro he
      subst he
      exact absurd ((endsWithSlash_iff s).mpr hc) (by simp [h])
    unfold Url.rstripSlash
    rw [hr, List.dropWhile_cons, if_neg (by simp [hcne]), ← hr, List.reverse_reverse]

/-! ### Claim theorems about the Signal Aggregator and threshold config -/

/-- C1 (counterexample): the five-signal aggregation of `scan_url` does not
clamp an out-of-range `ssl_risk`; with `ssl_risk = 10` and every other
signal zero, the combined score is `1.5`, outside `[0,1]`. -/
theorem c1_counterexample :
    Scanner.scanCombined 0 10 0 false false = 3/2 ∧
      ¬ Scanner.scanCombined 0 10 0 false false ≤ 1 := by
  have h : Scanner.scanCombined 0 10 0 false false = 3/2 := by
    have hz : Scanner.heuristicScore100 0 = 0 := by
      simp [Scanner.heuristicScore100, clamp01, pyRound]
    simp [Scanner.scanCombined, hz]
    norm_num
  exact ⟨h, by rw [h]; norm_num⟩

/-- C1 (amended): the two-signal combination of `/predict` is clamped to
`[0,1]` for all inputs whenever a heuristic score is present; the
five-signal combination of `scan_url` lies in `[0,1]` provided the
externally supplied `ssl_risk` and `ml_probability` are themselves in
`[0,1]` (the heuristic signal is normalized internally, and the html/feed
signals are 0/1 indicators), but it does not clamp out-of-range
`ssl_risk`/`ml_probability`. -/
theorem c1_combined_score_bounds :
    ∀ (wMl wH prob hs ssl ml heurRaw : ℚ) (htmlHit feedHit : Bool),
      (0 ≤ Api.predictCombined wMl wH prob (some hs) ∧
        Api.predictCombined wMl wH prob (some hs) ≤ 1) ∧
      (0 ≤ ssl → ssl ≤ 1 → 0 ≤ ml → ml ≤ 1 →
        0 ≤ Scanner.scanCombined heurRaw ssl ml htmlHit feedHit ∧
          Scanner.scanCombined heurRaw ssl ml htmlHit feedHit ≤ 1) := by
  intro wMl wH prob hs ssl ml heurRaw htmlHit feedHit
  constructor
  · exact ⟨clamp01_nonneg _, clamp01_le_one _⟩
  · intro h1 h2 h3 h4
    obtain ⟨hk0, hk1⟩ := heuristicScore100_bounds heurRaw
    have hq0 : (0 : ℚ) ≤ (Scanner.heuristicScore100 heurRaw : ℚ) := by exact_mod_cast hk0
    have hq1 : (Scanner.heuristicScore100 heurRaw : ℚ) ≤ 100 := by exact_mod_cast hk1
    unfold Scanner.scanCombined
    cases htmlHit <;> cases feedHit <;>
      simp only [if_true, if_false, Bool.false_eq_true, ite_true, ite_false] <;>
      constructor <;> linarith

/-- C1 (witness): the amended bound instantiated at concrete signals. -/
theorem c1_combined_score_bounds_witness :
    (0 ≤ Api.predictCombined 0.8 0.2 2 (some 50) ∧
      Api.predictCombined 0.8 0.2 2 (some 50) ≤ 1) ∧
    (0 ≤ Scanner.scanCombined 50 0.5 0.5 true false ∧
      Scanner.scanCombined 50 0.5 0.5 true false ≤ 1) := by
  have h := c1_combined_score_bounds 0.8 0.2 2 50 0.5 0.5 50 true false
  exact ⟨h.1, h.2 (by norm_num) (by norm_num) (by norm_num) (by norm_num)⟩

/-- C2 (counterexample): the `/scan` pipeline's verdict compares against a
hardcoded `0.6`, not the runtime-configurable threshold: with the threshold
validly set to `0.9`, a combined score of `0.7` is still labelled
`phishing`, so the claimed iff against `config.threshold` fails. -/
theorem c2_counterexample :
    Api.setThreshold 0.45 0.9 = Except.ok 0.9 ∧
      ¬ (Scanner.scanLabel 0.7 = "phishing" ↔ (0.7 : ℚ) ≥ 0.9) := by
  constructor
  · rw [Api.setThreshold, if_pos (by norm_num)]
  · have hl : Scanner.scanLabel 0.7 = "phishing" := by
      rw [Scanner.scanLabel, if_pos (by norm_num)]
    intro h
    exact absurd (h.mp hl) (by norm_num)

/-- C2 (amended): equality lands on the phishing side in both verdict
sites: `/predict`'s label is `phishing` iff the combined score is `>=` the
runtime-configurable threshold, while `scan_url`'s label is `phishing` iff
the combined risk is `>=` the fixed cut `0.6` (independent of the runtime
threshold). -/
theorem c2_label_threshold_iff :
    (∀ combined threshold : ℚ,
      Api.predictLabel combined threshold = "phishing" ↔ combined ≥ threshold) ∧
    (∀ risk : ℚ, Scanner.scanLabel risk = "phishing" ↔ risk ≥ 0.6) := by
  constructor
  · intro c t
    by_cases h : c ≥ t
    · simp [Api.predictLabel, h]
    · simp [Api.predictLabel, h]
  · intro r
    by_cases h : r ≥ (0.6 : ℚ)
    · simp [Scanner.scanLabel, h]
    · simp [Scanner.scanLabel, h]

/-- C4: setting the threshold to an out-of-range value fails with a
validation error and leaves the stored threshold unchanged; setting it to
an in-range value succeeds and the stored threshold becomes exactly that
value. -/
theorem c4_set_threshold :
    ∀ current t : ℚ,
      (¬ (0 ≤ t ∧ t ≤ 1) →
        (∃ msg, Api.setThreshold current t = Except.error msg) ∧
          Api.thresholdAfter current t = current) ∧
      ((0 ≤ t ∧ t ≤ 1) →
        Api.setThreshold current t = Except.ok t ∧
          Api.thresholdAfter current t = t) := by
  intro current t
  constructor
  · intro h
    refine ⟨⟨"invalid threshold", ?_⟩, ?_⟩ <;>
      simp [Api.setThreshold, Api.thresholdAfter, h]
  · intro h
    constructor <;> simp [Api.setThreshold, Api.thresholdAfter, h]

/-- C4 (witness): `set_threshold(1.5)` fails leaving `0.45` in place;
`set_threshold(0.42)` succeeds and the threshold becomes `0.42`. -/
theorem c4_set_threshold_witness :
    ((∃ msg, Api.setThreshold 0.45 1.5 = Except.error msg) ∧
      Api.thresholdAfter 0.45 1.5 = 0.45) ∧
    (Api.setThreshold 0.45 0.42 = Except.ok 0.42 ∧
      Api.thresholdAfter 0.45 0.42 = 0.42) :=
  ⟨(c4_set_threshold 0.45 1.5).1 (by norm_num),
    (c4_set_threshold 0.45 0.42).2 (by norm_num)⟩

/-! ### Character-level lemmas for the canonicalizers -/

theorem toNat_ofNat_valid (m : ℕ) (h : m < 55296) : (Char.ofNat m).toNat = m := by
  simp [Char.ofNat, Nat.isValidChar, h]
  rfl

theorem toLower_spec (c : Char) :
    (Char.toLower c = c ∧ ¬(65 ≤ c.toNat ∧ c.toNat ≤ 90)) ∨
      (65 ≤ c.toNat ∧ c.toNat ≤ 90 ∧ (Char.toLower c).toNat = c.toNat + 32) := by
  unfold Char.toLower
  by_cases h : 65 ≤ c.toNat ∧ c.toNat ≤ 90
  · right
    refine ⟨h.1, h.2, ?_⟩
    rw [if_pos h]
    exact toNat_ofNat_valid _ (by omega)
  · left
    exact ⟨by rw [if_neg h], h⟩

theorem isAlpha_of_range (c : Char) (h1 : 97 ≤ c.toNat) (h2 : c.toNat ≤ 122) :
    c.isAlpha = true := by
  have hl : c.isLower = true := by
    unfold Char.isLower
    rw [Bool.and_eq_true, decide_eq_true_iff, decide_eq_true_iff]
    constructor
    · change (97 : UInt32) ≤ c.val
      rw [UInt32.le_def, BitVec.le_def]
      exact h1
    · change c.val ≤ (122 : UInt32)
      rw [UInt32.le_def, BitVec.le_def]
      exact h2
  simp [Char.isAlpha, hl]

theorem char_eq_iff_toNat (c d : Char) : c = d ↔ c.toNat = d.toNat :=
  ⟨congrArg _, fun h => Char.ext (UInt32.toNat.inj h)⟩

theorem isPySpace_true_toNat (c : Char) (h : Url.isPySpace c = true) : c.toNat ≤ 32 := by
  unfold Url.isPySpace at h
  simp only [Bool.or_eq_true, beq_iff_eq, Bool.and_eq_true, decide_eq_true_iff] at h
  rcases h with ((((((h | h) | h) | h) | h) | h) | h)
  · subst h; decide
  · subst h; decide
  · subst h; decide
  · subst h; decide
  · omega
  · omega
  · omega

theorem netlocDelim_true_iff (d : Char) :
    Url.netlocDelim d = true ↔ d = '/' ∨ d = '?' ∨ d = '#' := by
  unfold Url.netlocDelim
  simp [Bool.or_eq_true, beq_iff_eq, or_assoc]

/-- `Char.toLower` maps uppercase letters into `[97,122]` and fixes
everything else; the facts the canonicalizer proofs need. -/
theorem toLower_preserves (c : Char) :
    Char.toLower (Char.toLower c) = Char.toLower c ∧
    (Char.isAlpha c = true → Char.isAlpha (Char.toLower c) = true) ∧
    (Url.schemeChar c = true → Url.schemeChar (Char.toLower c) = true) ∧
    (Url.netlocDelim c = false → Url.netlocDelim (Char.toLower c) = false) ∧
    (Url.isPySpace c = false → Url.isPySpace (Char.toLower c) = false) ∧
    (∀ d : Char, d.toNat < 97 → c ≠ d → Char.toLower c ≠ d) := by
  rcases toLower_spec c with ⟨heq, _⟩ | ⟨h1, h2, hval⟩
  · rw [heq]
    exact ⟨heq, fun h => h, fun h => h, fun h => h, fun h => h, fun _ _ h => h⟩
  · have hrange : 97 ≤ (Char.toLower c).toNat ∧ (Char.toLower c).toNat ≤ 122 := by omega
    have hne : ∀ d : Char, d.toNat < 97 → Char.toLower c ≠ d := by
      intro d hd he
      rw [char_eq_iff_toNat] at he
      omega
    refine ⟨?_, ?_, ?_, ?_, ?_, fun d hd _ => hne d hd⟩
    · rcases toLower_spec (Char.toLower c) with ⟨heq2, _⟩ | ⟨h1', h2', _⟩
      · exact heq2
      · omega
    · intro _; exact isAlpha_of_range _ hrange.1 hrange.2
    · intro _
      unfold Url.schemeChar
      rw [isAlpha_of_range _ hrange.1 hrange.2]
      simp
    · intro _
      rw [Bool.eq_false_iff]
      intro hmem
      rcases (netlocDelim_true_iff _).mp hmem with h | h | h
      · rw [char_eq_iff_toNat, show ('/').toNat = 47 from rfl] at h; omega
      · rw [char_eq_iff_toNat, show ('?').toNat = 63 from rfl] at h; omega
      · rw [char_eq_iff_toNat, show ('#').toNat = 35 from rfl] at h; omega
    · intro _
      rw [Bool.eq_false_iff]
      intro hsp
      have := isPySpace_true_toNat _ hsp
      omega

theorem lowerStr_idem (s : List Char) : Url.lowerStr (Url.lowerStr s) = Url.lowerStr s := by
  unfold Url.lowerStr
  rw [List.map_map]
  exact List.map_congr_left (fun c _ => (toLower_preserves c).1)

theorem headIsAlpha_lowerStr (s : List Char) (h : Url.headIsAlpha s = true) :
    Url.headIsAlpha (Url.lowerStr s) = true := by
  cases s with
  | nil => exact h
  | cons c t => exact ((toLower_preserves c).2.1 h)

theorem all_schemeChar_lowerStr (s : List Char) (h : s.all Url.schemeChar = true) :
    (Url.lowerStr s).all Url.schemeChar = true := by
  rw [List.all_eq_true] at h ⊢
  intro c hc
  rcases List.mem_map.mp hc with ⟨d, hd, rfl⟩
  exact (toLower_preserves d).2.2.1 (h d hd)

/-! ### Lemmas about `splitOnce` -/

theorem splitOnce_append {c : Char} {a : List Char} (b : List Char) (h : c ∉ a) :
    Url.splitOnce c (a ++ c :: b) = some (a, b) := by
  induction a with
  | nil => simp [Url.splitOnce]
  | cons d t ih =>
    have hd : ¬ d = c := fun he => h (he ▸ List.mem_cons_self d t)
    rw [List.cons_append]
    unfold Url.splitOnce
    rw [if_neg hd, ih (fun hm => h (List.mem_cons_of_mem d hm))]

theorem splitOnce_none_of_not_mem {c : Char} {l : List Char} (h : c ∉ l) :
    Url.splitOnce c l = none := by
  induction l with
  | nil => rfl
  | cons d t ih =>
    have hd : ¬ d = c := fun he => h (he ▸ List.mem_cons_self d t)
    unfold Url.splitOnce
    rw [if_neg hd, ih (fun hm => h (List.mem_cons_of_mem d hm))]

theorem not_mem_of_splitOnce_none {c : Char} {l : List Char}
    (h : Url.splitOnce c l = none) : c ∉ l := by
  induction l with
  | nil => exact List.not_mem_nil c
  | cons d t ih =>
    unfold Url.splitOnce at h
    by_cases hd : d = c
    · rw [if_pos hd] at h; exact absurd h (by simp)
    · rw [if_neg hd] at h
      intro hmem
      rcases List.mem_cons.mp hmem with he | hmem2
      · exact hd he.symm
      · rcases hs : Url.splitOnce c t with _ | ⟨a, b⟩
        · exact (ih hs) hmem2
        · rw [hs] at h; exact absurd h (by simp)

theorem splitOnce_some_shape {c : Char} {l a b : List Char}
    (h : Url.splitOnce c l = some (a, b)) : l = a ++ c :: b ∧ c ∉ a := by
  induction l generalizing a with
  | nil => exact absurd h (by simp [Url.splitOnce])
  | cons d t ih =>
    unfold Url.splitOnce at h
    by_cases hd : d = c
    · rw [if_pos hd] at h
      obtain ⟨rfl, rfl⟩ : a = [] ∧ b = t := by
        constructor <;> · injection h with h2; injection h2 with h3 h4; simp [h3.symm, h4.symm]
      refine ⟨by rw [hd, List.nil_append], List.not_mem_nil _⟩
    · rw [if_neg hd] at h
      rcases hs : Url.splitOnce c t with _ | ⟨a2, b2⟩
      · rw [hs] at h; exact absurd h (by simp)
      · rw [hs] at h
        obtain ⟨rfl, rfl⟩ : a = d :: a2 ∧ b = b2 := by
          constructor <;> · injection h with h2; injection h2 with h3 h4; simp [h3.symm, h4.symm]
        obtain ⟨ht, hna⟩ := ih hs
        constructor
        · rw [ht, List.cons_append]
        · intro hm
          rcases List.mem_cons.mp hm with he | hm2
          · exact hd he.symm
          · exact hna hm2

/-! ### Lemmas about the fragment/query cut views -/

theorem cutAt_not_mem (sep : Char) (t : List Char) : sep ∉ Url.cutAt sep t := by
  unfold Url.cutAt
  rcases hs : Url.splitOnce sep t with _ | ⟨a, b⟩
  · exact not_mem_of_splitOnce_none hs
  · exact (splitOnce_some_shape hs).2

theorem cutAt_subset (sep : Char) (t : List Char) : ∀ c ∈ Url.cutAt sep t, c ∈ t := by
  unfold Url.cutAt
  rcases hs : Url.splitOnce sep t with _ | ⟨a, b⟩
  · exact fun c hc => hc
  · intro c hc
    rw [(splitOnce_some_shape hs).1]
    exact List.mem_append_left _ hc

theorem cutAt_head (sep : Char) (t : List Char) :
    Url.cutAt sep t = [] ∨ (Url.cutAt sep t).head? = t.head? := by
  unfold Url.cutAt
  rcases hs : Url.splitOnce sep t with _ | ⟨a, b⟩
  · right; rfl
  · cases a with
    | nil => left; rfl
    | cons c a2 =>
      right
      rw [(splitOnce_some_shape hs).1]
      rfl

theorem restAt_subset (sep : Char) (t : List Char) : ∀ c ∈ Url.restAt sep t, c ∈ t := by
  unfold Url.restAt
  rcases hs : Url.splitOnce sep t with _ | ⟨a, b⟩
  · intro c hc; exact absurd hc (List.not_mem_nil c)
  · intro c hc
    rw [(splitOnce_some_shape hs).1]
    exact List.mem_append_right _ (List.mem_cons_of_mem _ hc)

theorem cutAt_of_not_mem {sep : Char} {t : List Char} (h : sep ∉ t) :
    Url.cutAt sep t = t ∧ Url.restAt sep t = [] := by
  unfold Url.cutAt Url.restAt
  rw [splitOnce_none_of_not_mem h]
  exact ⟨rfl, rfl⟩

theorem cutAt_append {sep : Char} {a : List Char} (b : List Char) (h : sep ∉ a) :
    Url.cutAt sep (a ++ sep :: b) = a ∧ Url.restAt sep (a ++ sep :: b) = b := by
  unfold Url.cutAt Url.restAt
  rw [splitOnce_append b h]
  exact ⟨rfl, rfl⟩

/-! ### Parsing lemmas for the canonicalizers -/

theorem pyStrip_eq_self {l : List Char} (h : ∀ c ∈ l, Url.isPySpace c = false) :
    Url.pyStrip l = l := by
  unfold Url.pyStrip
  rw [dropWhile_all_false h,
    dropWhile_all_false (fun c hc => h c (List.mem_reverse.mp hc)),
    List.reverse_reverse]

theorem strContains_append (pat a b : List Char) :
    Url.strContains pat (a ++ (pat ++ b)) = true := by
  induction a with
  | nil =>
    rw [List.nil_append]
    cases pat with
    | nil =>
      cases b with
      | nil => rfl
      | cons c t => simp [Url.strContains]
    | cons p pt =>
      have hpre : (p :: pt).isPrefixOf ((p :: pt) ++ b) = true :=
        List.isPrefixOf_iff_prefix.mpr (List.prefix_append _ b)
      rw [List.cons_append] at hpre ⊢
      unfold Url.strContains
      rw [hpre, Bool.true_or]
  | cons d t ih =>
    rw [List.cons_append]
    unfold Url.strContains
    rw [ih, Bool.or_true]

theorem IsPrefix_head {l1 l2 : List Char} (h : l1 <+: l2) :
    l1 = [] ∨ l1.head? = l2.head? := by
  obtain ⟨z, rfl⟩ := h
  cases l1 with
  | nil => left; rfl
  | cons c t => right; rfl

theorem rstripSlash_pre (p : List Char) : Url.rstripSlash p <+: p := by
  unfold Url.rstripSlash
  have h := List.dropWhile_suffix (l := p.reverse) (p := fun c => c == '/')
  have h2 := List.reverse_prefix.mpr h
  rwa [List.reverse_reverse] at h2

theorem rstrip_eq_stripPathSlash (p : List Char) :
    Url.rstripSlash p = ThreatIntel.stripPathSlash p := by
  unfold ThreatIntel.stripPathSlash
  split
  · rfl
  · next h => exact rstripSlash_eq_self p (by simpa using h)

theorem stripPathSlash_pre (p : List Char) : ThreatIntel.stripPathSlash p <+: p := by
  rw [← rstrip_eq_stripPathSlash]
  exact rstripSlash_pre p

theorem stripPathSlash_not_ends (p : List Char) :
    Url.endsWithSlash (ThreatIntel.stripPathSlash p) = false := by
  rw [← rstrip_eq_stripPathSlash]
  exact rstripSlash_not_endsWith p

theorem splitScheme_schemed (s rest : List Char) (hs1 : Url.headIsAlpha s = true)
    (hs2 : s.all Url.schemeChar = true) :
    Url.splitSchemePy (s ++ ':' :: rest) = (Url.lowerStr s, rest) := by
  have hcolon : ':' ∉ s := by
    intro hmem
    have := List.all_eq_true.mp hs2 ':' hmem
    exact absurd this (by decide)
  unfold Url.splitSchemePy
  rw [splitOnce_append rest hcolon]
  dsimp only
  rw [if_pos (by rw [hs1, hs2]; rfl)]

theorem urlsplit_schemed (s r : List Char) (hs1 : Url.headIsAlpha s = true)
    (hs2 : s.all Url.schemeChar = true) :
    Url.urlsplitPy (s ++ ':' :: '/' :: '/' :: r) =
      ⟨Url.lowerStr s,
        r.takeWhile (fun c => !Url.netlocDelim c),
        Url.pathPart (r.dropWhile (fun c => !Url.netlocDelim c)),
        Url.queryPart (r.dropWhile (fun c => !Url.netlocDelim c)),
        Url.fragPart (r.dropWhile (fun c => !Url.netlocDelim c))⟩ := by
  unfold Url.urlsplitPy
  rw [splitScheme_schemed s _ hs1 hs2]
  dsimp only
  rw [show Url.splitNetlocPy ('/' :: '/' :: r) =
    (r.takeWhile (fun c => !Url.netlocDelim c),
      r.dropWhile (fun c => !Url.netlocDelim c)) from rfl]
  dsimp only
  unfold Url.pathPart Url.queryPart Url.fragPart Url.cutAt Url.restAt
  rcases h1 : Url.splitOnce '#' (r.dropWhile (fun c => !Url.netlocDelim c)) with _ | ⟨a, b⟩
  · rcases h2 : Url.splitOnce '?' (r.dropWhile (fun c => !Url.netlocDelim c)) with _ | ⟨p1, q1⟩ <;>
      rfl
  · rcases h2 : Url.splitOnce '?' a with _ | ⟨p1, q1⟩ <;> rfl

theorem urlparse_schemed (s r : List Char) (hs1 : Url.headIsAlpha s = true)
    (hs2 : s.all Url.schemeChar = true) (hsemi : ';' ∉ r) :
    Url.urlparsePy (s ++ ':' :: '/' :: '/' :: r) =
      ⟨Url.lowerStr s,
        r.takeWhile (fun c => !Url.netlocDelim c),
        Url.pathPart (r.dropWhile (fun c => !Url.netlocDelim c)),
        Url.queryPart (r.dropWhile (fun c => !Url.netlocDelim c)),
        Url.fragPart (r.dropWhile (fun c => !Url.netlocDelim c))⟩ := by
  unfold Url.urlparsePy
  rw [urlsplit_schemed s r hs1 hs2]
  dsimp only
  rw [if_neg]
  intro hcond
  apply hsemi
  have h1 := cutAt_subset '?' (Url.cutAt '#' (r.dropWhile (fun c => !Url.netlocDelim c))) ';'
    hcond.2
  have h2 := cutAt_subset '#' (r.dropWhile (fun c => !Url.netlocDelim c)) ';' h1
  exact (List.dropWhile_suffix _).subset h2

/-- The first application of either canonicalizer to a schemed URL, and the
agreement of the two canonicalizers on such inputs. -/
theorem normalize_schemed (s r : List Char) (hs0 : s ≠ [])
    (hs1 : Url.headIsAlpha s = true) (hs2 : s.all Url.schemeChar = true)
    (hsp : ∀ c ∈ s ++ ':' :: '/' :: '/' :: r, Url.isPySpace c = false)
    (hsemi : ';' ∉ r) :
    ThreatIntel.normalize_url (s ++ ':' :: '/' :: '/' :: r) =
      Url.renderUrl (Url.lowerStr s)
        (Url.lowerStr (r.takeWhile (fun c => !Url.netlocDelim c)))
        (ThreatIntel.stripPathSlash (Url.pathPart (r.dropWhile (fun c => !Url.netlocDelim c))))
        (Url.queryPart (r.dropWhile (fun c => !Url.netlocDelim c))) ∧
    FeedUpdater.normalize_url (s ++ ':' :: '/' :: '/' :: r) =
      ThreatIntel.normalize_url (s ++ ':' :: '/' :: '/' :: r) := by
  have hstrip : Url.pyStrip (s ++ ':' :: '/' :: '/' :: r) = s ++ ':' :: '/' :: '/' :: r :=
    pyStrip_eq_self hsp
  have hparse := urlparse_schemed s r hs1 hs2 hsemi
  have hnil : ¬ Url.lowerStr s = [] := by
    intro h
    exact hs0 (List.map_eq_nil_iff.mp h)
  constructor
  · unfold ThreatIntel.normalize_url
    rw [hstrip, hparse]
    dsimp only
    rw [if_neg hnil, lowerStr_idem]
    rfl
  · unfold FeedUpdater.normalize_url ThreatIntel.normalize_url
    rw [hstrip]
    dsimp only
    rw [if_pos (show Url.strContains "://".data (s ++ ':' :: '/' :: '/' :: r) = true from
      strContains_append "://".data s r)]
    rw [hparse]
    dsimp only
    rw [if_neg hnil, lowerStr_idem, rstrip_eq_stripPathSlash]

/-- Reparsing a rendered canonical form recovers its components. -/
theorem parse_render_core (s n p Q : List Char)
    (hs1 : Url.headIsAlpha s = true) (hs2 : s.all Url.schemeChar = true)
    (hn1 : ∀ c ∈ n, Url.netlocDelim c = false)
    (hp1 : p = [] ∨ p.head? = some '/')
    (hp3 : '?' ∉ p)
    (hfrag : '#' ∉ p ++ Q)
    (hsemi : ';' ∉ n ++ (p ++ Q))
    (hQhead : Q = [] ∨ Q.head? = some '?') :
    Url.urlparsePy (s ++ ':' :: '/' :: '/' :: (n ++ (p ++ Q))) =
      ⟨Url.lowerStr s, n, p, Q.tail, []⟩ := by
  rw [urlparse_schemed s _ hs1 hs2 hsemi]
  have hna : ∀ c ∈ n, (fun c => !Url.netlocDelim c) c = true := by
    intro c hc
    simp [hn1 c hc]
  have hstop : (p ++ Q).takeWhile (fun c => !Url.netlocDelim c) = [] ∧
      (p ++ Q).dropWhile (fun c => !Url.netlocDelim c) = p ++ Q := by
    rcases hp1 with rfl | hhead
    · rw [List.nil_append]
      rcases hQhead with rfl | hQh
      · exact ⟨rfl, rfl⟩
      · cases Q with
        | nil => exact absurd hQh (by simp)
        | cons c Q2 =>
          have hc : c = '?' := by simpa using hQh
          subst hc
          rw [List.takeWhile_cons, List.dropWhile_cons, if_neg (by decide), if_neg (by decide)]
          exact ⟨rfl, rfl⟩
    · cases p with
      | nil => exact absurd hhead (by simp)
      | cons c p2 =>
        have hc : c = '/' := by simpa using hhead
        subst hc
        rw [List.cons_append, List.takeWhile_cons, List.dropWhile_cons,
          if_neg (by decide), if_neg (by decide)]
        exact ⟨rfl, rfl⟩
  rw [takeWhile_append_all _ hna, dropWhile_append_all _ hna, hstop.1, hstop.2,
    List.append_nil]
  have hfragQ := cutAt_of_not_mem hfrag
  have hpq : Url.cutAt '?' (p ++ Q) = p ∧ Url.restAt '?' (p ++ Q) = Q.tail := by
    rcases hQhead with rfl | hQh
    · rw [List.append_nil]
      exact ⟨(cutAt_of_not_mem hp3).1, (cutAt_of_not_mem hp3).2⟩
    · cases Q with
      | nil => exact absurd hQh (by simp)
      | cons c Q2 =>
        have hc : c = '?' := by simpa using hQh
        subst hc
        exact ⟨(cutAt_append Q2 hp3).1, (cutAt_append Q2 hp3).2⟩
  unfold Url.pathPart Url.queryPart Url.fragPart
  rw [hfragQ.1, hfragQ.2, hpq.1, hpq.2]

/-- A rendered canonical form whose components satisfy the invariants of
the canonicalizer output is a fixed point of both canonicalizers. -/
theorem normalize_fixed (s n p q : List Char)
    (hs0 : s ≠ []) (hs1 : Url.headIsAlpha s = true) (hs2 : s.all Url.schemeChar = true)
    (hsl : Url.lowerStr s = s)
    (hn1 : ∀ c ∈ n, Url.netlocDelim c = false)
    (hnl : Url.lowerStr n = n)
    (hn2 : ';' ∉ n)
    (hp1 : p = [] ∨ p.head? = some '/')
    (hp2 : '#' ∉ p) (hp3 : '?' ∉ p) (hp4 : ';' ∉ p)
    (hp5 : Url.endsWithSlash p = false)
    (hq1 : '#' ∉ q) (hq2 : ';' ∉ q)
    (hsp : ∀ c ∈ s ++ (n ++ (p ++ q)), Url.isPySpace c = false) :
    ThreatIntel.normalize_url (Url.renderUrl s n p q) = Url.renderUrl s n p q ∧
    FeedUpdater.normalize_url (Url.renderUrl s n p q) = Url.renderUrl s n p q := by
  have hq' : '#' ∉ (if q = [] then ([] : List Char) else '?' :: q) := by
    split
    · exact List.not_mem_nil _
    · intro hmem
      rcases List.mem_cons.mp hmem with he | hm
      · exact absurd he (by decide)
      · exact hq1 hm
  have hqsemi : ';' ∉ (if q = [] then ([] : List Char) else '?' :: q) := by
    split
    · exact List.not_mem_nil _
    · intro hmem
      rcases List.mem_cons.mp hmem with he | hm
      · exact absurd he (by decide)
      · exact hq2 hm
  have hQhead : (if q = [] then ([] : List Char) else '?' :: q) = [] ∨
      (if q = [] then ([] : List Char) else '?' :: q).head? = some '?' := by
    split
    · exact Or.inl rfl
    · exact Or.inr rfl
  have hQtail : (if q = [] then ([] : List Char) else '?' :: q).tail = q := by
    split
    · next h => rw [h]; rfl
    · rfl
  have hrender : Url.renderUrl s n p q =
      s ++ ':' :: '/' :: '/' :: (n ++ (p ++ (if q = [] then [] else '?' :: q))) := by
    unfold Url.renderUrl
    rw [show "://".data = [':', '/', '/'] from rfl]
    simp [List.append_assoc]
  have hfrag : '#' ∉ p ++ (if q = [] then ([] : List Char) else '?' :: q) := by
    intro hmem
    rcases List.mem_append.mp hmem with hm | hm
    · exact hp2 hm
    · exact hq' hm
  have hsemi : ';' ∉ n ++ (p ++ (if q = [] then ([] : List Char) else '?' :: q)) := by
    intro hmem
    rcases List.mem_append.mp hmem with hm | hm
    · exact hn2 hm
    · rcases List.mem_append.mp hm with hm2 | hm2
      · exact hp4 hm2
      · exact hqsemi hm2
  have hcore := parse_render_core s n p (if q = [] then [] else '?' :: q)
    hs1 hs2 hn1 hp1 hp3 hfrag hsemi hQhead
  have hparse : Url.urlparsePy (Url.renderUrl s n p q) = ⟨Url.lowerStr s, n, p, q, []⟩ := by
    rw [hrender, hcore, hQtail]
  have hspQ : ∀ c ∈ (if q = [] then ([] : List Char) else '?' :: q), Url.isPySpace c = false := by
    split
    · intro c hc
      exact absurd hc (List.not_mem_nil c)
    · intro c hc
      rcases List.mem_cons.mp hc with rfl | hm
      · decide
      · exact hsp c
          (List.mem_append_right _ (List.mem_append_right _ (List.mem_append_right _ hm)))
  have hspall : ∀ c ∈ Url.renderUrl s n p q, Url.isPySpace c = false := by
    rw [hrender]
    intro c hc
    rcases List.mem_append.mp hc with hcs | hc2
    · exact hsp c (List.mem_append_left _ hcs)
    · rcases List.mem_cons.mp hc2 with rfl | hc3
      · decide
      · rcases List.mem_cons.mp hc3 with rfl | hc4
        · decide
        · rcases List.mem_cons.mp hc4 with rfl | hc5
          · decide
          · rcases List.mem_append.mp hc5 with hcn | hc6
            · exact hsp c (List.mem_append_right _ (List.mem_append_left _ hcn))
            · rcases List.mem_append.mp hc6 with hcp | hcq
              · exact hsp c
                  (List.mem_append_right _ (List.mem_append_right _ (List.mem_append_left _ hcp)))
              · exact hspQ c hcq
  have hs0' : ¬ Url.lowerStr s = [] := by rw [hsl]; exact hs0
  have hstrip : ThreatIntel.stripPathSlash p = p := by
    unfold ThreatIntel.stripPathSlash
    rw [if_neg (by simp [hp5])]
  constructor
  · unfold ThreatIntel.normalize_url
    rw [pyStrip_eq_self hspall, hparse]
    dsimp only
    rw [lowerStr_idem, hsl, if_neg hs0, hnl, hstrip]
    rfl
  · unfold FeedUpdater.normalize_url
    rw [pyStrip_eq_self hspall]
    dsimp only
    rw [if_pos (show Url.strContains "://".data (Url.renderUrl s n p q) = true from by
      rw [hrender]; exact strContains_append "://".data s _)]
    rw [hparse]
    dsimp only
    rw [lowerStr_idem, hsl, hnl, rstripSlash_eq_self p hp5]
    rfl

theorem mem_of_head?_eq {l : List Char} {c : Char} (h : l.head? = some c) : c ∈ l := by
  cases l with
  | nil => exact absurd h (by simp)
  | cons d t =>
    have hd : d = c := by simpa using h
    subst hd
    exact List.mem_cons_self d t

/-- The path produced by `urlsplit` is empty or starts with `/`. -/
theorem pathPart_head (r : List Char) :
    Url.pathPart (r.dropWhile (fun c => !Url.netlocDelim c)) = [] ∨
      (Url.pathPart (r.dropWhile (fun c => !Url.netlocDelim c))).head? = some '/' := by
  have hp0hash : '#' ∉ Url.pathPart (r.dropWhile (fun c => !Url.netlocDelim c)) := by
    intro hm
    exact cutAt_not_mem '#' _ (cutAt_subset '?' _ '#' hm)
  rcases cutAt_head '?' (Url.cutAt '#' (r.dropWhile (fun c => !Url.netlocDelim c)))
    with h | hh
  · exact Or.inl h
  · rcases cutAt_head '#' (r.dropWhile (fun c => !Url.netlocDelim c)) with h2 | hh2
    · left
      show Url.cutAt '?' (Url.cutAt '#' (r.dropWhile (fun c => !Url.netlocDelim c))) = []
      rw [h2]
      rfl
    · rcases h3 : (r.dropWhile (fun c => !Url.netlocDelim c)).head? with _ | d
      · left
        have hTnil : r.dropWhile (fun c => !Url.netlocDelim c) = [] :=
          List.head?_eq_none_iff.mp h3
        show Url.cutAt '?' (Url.cutAt '#' (r.dropWhile (fun c => !Url.netlocDelim c))) = []
        rw [hTnil]
        rfl
      · have hdelim : Url.netlocDelim d = true := by
          have h4 := head?_dropWhile_false (fun c => !Url.netlocDelim c) r d h3
          simpa using h4
        have hph : (Url.pathPart (r.dropWhile (fun c => !Url.netlocDelim c))).head? = some d := by
          show (Url.cutAt '?' (Url.cutAt '#' (r.dropWhile (fun c => !Url.netlocDelim c)))).head?
            = some d
          rw [hh, hh2, h3]
        rcases (netlocDelim_true_iff d).mp hdelim with rfl | rfl | rfl
        · exact Or.inr hph
        · exact absurd (mem_of_head?_eq hph) (cutAt_not_mem '?' _)
        · exact absurd (mem_of_head?_eq hph) hp0hash

/-- C6 (counterexample): neither canonicalizer is idempotent on all
inputs.  `threat_intel.normalize_url` fails on a scheme with no authority
(`a:B`), on a path whose trailing-slash strip exposes `;parameters`
(`http://h/a;b/`), and on a trailing space exposed by dropping a slash
(`http://h/p /`); `feed_updater.normalize_url` fails on a query containing
`://` (`foo?x=a://b`). -/
theorem c6_counterexample :
    ThreatIntel.normalize_url (ThreatIntel.normalize_url "a:B".data) ≠
      ThreatIntel.normalize_url "a:B".data ∧
    ThreatIntel.normalize_url (ThreatIntel.normalize_url "http://h/a;b/".data) ≠
      ThreatIntel.normalize_url "http://h/a;b/".data ∧
    ThreatIntel.normalize_url (ThreatIntel.normalize_url "http://h/p /".data) ≠
      ThreatIntel.normalize_url "http://h/p /".data ∧
    FeedUpdater.normalize_url (FeedUpdater.normalize_url "foo?x=a://b".data) ≠
      FeedUpdater.normalize_url "foo?x=a://b".data := by decide

/-- C6 (amended): canonicalization is idempotent on every ASCII input that
starts with a valid scheme followed by `://` and contains no whitespace,
no semicolon and no square bracket, for both canonicalizers.  (The ASCII
and bracket restrictions delimit the subset of `urlparse` modelled here:
Python lowercases non-ASCII text by Unicode rules and raises `ValueError`
on unbalanced brackets in the netloc.) -/
theorem c6_canonicalize_idempotent :
    ∀ s r : List Char,
      s ≠ [] → Url.headIsAlpha s = true → s.all Url.schemeChar = true →
      (∀ c ∈ s ++ ':' :: '/' :: '/' :: r,
        c.toNat < 128 ∧ Url.isPySpace c = false ∧ c ≠ ';' ∧ c ≠ '[' ∧ c ≠ ']') →
      ThreatIntel.normalize_url (ThreatIntel.normalize_url (s ++ ':' :: '/' :: '/' :: r)) =
        ThreatIntel.normalize_url (s ++ ':' :: '/' :: '/' :: r) ∧
      FeedUpdater.normalize_url (FeedUpdater.normalize_url (s ++ ':' :: '/' :: '/' :: r)) =
        FeedUpdater.normalize_url (s ++ ':' :: '/' :: '/' :: r) := by
  intro s r hs0 hs1 hs2 hx
  have hsp : ∀ c ∈ s ++ ':' :: '/' :: '/' :: r, Url.isPySpace c = false :=
    fun c hc => (hx c hc).2.1
  have hrmem : ∀ c ∈ r, c ∈ s ++ ':' :: '/' :: '/' :: r := by
    intro c hc
    exact List.mem_append_right _
      (List.mem_cons_of_mem _ (List.mem_cons_of_mem _ (List.mem_cons_of_mem _ hc)))
  have hsmem : ∀ c ∈ s, c ∈ s ++ ':' :: '/' :: '/' :: r :=
    fun c hc => List.mem_append_left _ hc
  have hsemi : ';' ∉ r := fun hm => (hx ';' (hrmem ';' hm)).2.2.1 rfl
  obtain ⟨hti, hfu⟩ := normalize_schemed s r hs0 hs1 hs2 hsp hsemi
  -- membership chains for the parsed components
  have htsub : ∀ c ∈ r.dropWhile (fun c => !Url.netlocDelim c), c ∈ r :=
    fun c hc => (List.dropWhile_suffix _).subset hc
  have hn0sub : ∀ c ∈ r.takeWhile (fun c => !Url.netlocDelim c), c ∈ r :=
    fun c hc => (List.takeWhile_prefix _).subset hc
  have hp0cut : ∀ c ∈ Url.pathPart (r.dropWhile (fun c => !Url.netlocDelim c)),
      c ∈ Url.cutAt '#' (r.dropWhile (fun c => !Url.netlocDelim c)) :=
    fun c hc => cutAt_subset '?' _ c hc
  have hq0cut : ∀ c ∈ Url.queryPart (r.dropWhile (fun c => !Url.netlocDelim c)),
      c ∈ Url.cutAt '#' (r.dropWhile (fun c => !Url.netlocDelim c)) :=
    fun c hc => restAt_subset '?' _ c hc
  have hp0sub : ∀ c ∈ Url.pathPart (r.dropWhile (fun c => !Url.netlocDelim c)), c ∈ r :=
    fun c hc => htsub c (cutAt_subset '#' _ c (hp0cut c hc))
  have hq0sub : ∀ c ∈ Url.queryPart (r.dropWhile (fun c => !Url.netlocDelim c)), c ∈ r :=
    fun c hc => htsub c (cutAt_subset '#' _ c (hq0cut c hc))
  have hstsub : ∀ c ∈ ThreatIntel.stripPathSlash
      (Url.pathPart (r.dropWhile (fun c => !Url.netlocDelim c))),
      c ∈ Url.pathPart (r.dropWhile (fun c => !Url.netlocDelim c)) :=
    fun c hc => (stripPathSlash_pre _).subset hc
  -- the fixed-point side conditions for the lowered components
  have hfix := normalize_fixed
    (Url.lowerStr s)
    (Url.lowerStr (r.takeWhile (fun c => !Url.netlocDelim c)))
    (ThreatIntel.stripPathSlash (Url.pathPart (r.dropWhile (fun c => !Url.netlocDelim c))))
    (Url.queryPart (r.dropWhile (fun c => !Url.netlocDelim c)))
    (by
      intro h
      exact hs0 (List.map_eq_nil_iff.mp h))
    (headIsAlpha_lowerStr s hs1)
    (all_schemeChar_lowerStr s hs2)
    (lowerStr_idem s)
    (by
      intro c hc
      rcases List.mem_map.mp hc with ⟨d, hd, rfl⟩
      have hbase : Url.netlocDelim d = false := by
        have := List.mem_takeWhile_imp hd
        simpa using this
      exact (toLower_preserves d).2.2.2.1 hbase)
    (lowerStr_idem _)
    (by
      intro hc
      rcases List.mem_map.mp hc with ⟨d, hd, he⟩
      exact (toLower_preserves d).2.2.2.2.2 ';' (by decide)
        (fun h => (hx d (hrmem d (hn0sub d hd))).2.2.1 h) he)
    (by
      rcases IsPrefix_head (stripPathSlash_pre
        (Url.pathPart (r.dropWhile (fun c => !Url.netlocDelim c)))) with h | hh
      · exact Or.inl h
      · rcases pathPart_head r with h2 | hh2
        · rw [h2] at hh ⊢
          exact Or.inl (by rw [show ThreatIntel.stripPathSlash [] = [] from rfl])
        · exact Or.inr (hh.trans hh2))
    (fun hm => cutAt_not_mem '#' _ (hp0cut '#' (hstsub '#' hm)))
    (fun hm => cutAt_not_mem '?' _ (hstsub '?' hm))
    (fun hm => hsemi (hp0sub ';' (hstsub ';' hm)))
    (stripPathSlash_not_ends _)
    (fun hm => cutAt_not_mem '#' _ (hq0cut '#' hm))
    (fun hm => hsemi (hq0sub ';' hm))
    (by
      intro c hc
      rcases List.mem_append.mp hc with hcs | hc2
      · rcases List.mem_map.mp hcs with ⟨d, hd, rfl⟩
        exact (toLower_preserves d).2.2.2.2.1 (hsp d (hsmem d hd))
      · rcases List.mem_append.mp hc2 with hcn | hc3
        · rcases List.mem_map.mp hcn with ⟨d, hd, rfl⟩
          exact (toLower_preserves d).2.2.2.2.1 (hsp d (hrmem d (hn0sub d hd)))
        · rcases List.mem_append.mp hc3 with hcp | hcq
          · exact hsp c (hrmem c (hp0sub c (hstsub c hcp)))
          · exact hsp c (hrmem c (hq0sub c hcq)))
  constructor
  · rw [hti]
    exact hfix.1
  · rw [hfu, hti]
    exact hfix.2

/-- C6 (witness): the amended idempotence at `https://Ex.COM/a//`. -/
theorem c6_canonicalize_idempotent_witness :
    ThreatIntel.normalize_url (ThreatIntel.normalize_url
        ("https".data ++ ':' :: '/' :: '/' :: "Ex.COM/a//".data)) =
      ThreatIntel.normalize_url ("https".data ++ ':' :: '/' :: '/' :: "Ex.COM/a//".data) ∧
    FeedUpdater.normalize_url (FeedUpdater.normalize_url
        ("https".data ++ ':' :: '/' :: '/' :: "Ex.COM/a//".data)) =
      FeedUpdater.normalize_url ("https".data ++ ':' :: '/' :: '/' :: "Ex.COM/a//".data) :=
  c6_canonicalize_idempotent "https".data "Ex.COM/a//".data
    (by decide) (by decide) (by decide) (by decide)

/-! ### Lemmas about the feed-index merge -/

/-- `opStep` applied at a key, unfolded. -/
theorem opStep_apply (m : FeedUpdater.Index) (u c : List Char) :
    FeedUpdater.opStep m u c =
      if (m (FeedUpdater.normalize_url u)).isSome then m c
      else if c = FeedUpdater.normalize_url u
        then some (FeedUpdater.IndexValue.openPhish u) else m c := by
  unfold FeedUpdater.opStep FeedUpdater.idxInsert
  split <;> rfl

/-- `ptStep` applied at a key, unfolded. -/
theorem ptStep_apply (m : FeedUpdater.Index) (e : FeedUpdater.PTEntry) (c : List Char) :
    FeedUpdater.ptStep m e c =
      if FeedUpdater.ptUrl e = [] then m c
      else if c = FeedUpdater.normalize_url (FeedUpdater.ptUrl e)
        then some (FeedUpdater.IndexValue.phishTank e) else m c := by
  unfold FeedUpdater.ptStep FeedUpdater.idxInsert
  split <;> rfl

/-- The OpenPhish loop never changes a key that is already present. -/
theorem opFold_preserves (op : List (List Char)) (c : List Char) :
    ∀ m : FeedUpdater.Index, (m c).isSome = true →
      (op.foldl FeedUpdater.opStep m) c = m c := by
  induction op with
  | nil => intro m _; rfl
  | cons u rest ih =>
    intro m h
    have hstep : FeedUpdater.opStep m u c = m c := by
      rw [opStep_apply]
      split
      · rfl
      · next hn =>
        rw [if_neg]
        intro hc
        exact hn (hc ▸ h)
    have h2 : ((FeedUpdater.opStep m u) c).isSome = true := by rw [hstep]; exact h
    rw [List.foldl_cons, ih (FeedUpdater.opStep m u) h2, hstep]

/-- The PhishTank loop leaves a PhishTank-sourced value at every key that
some of its entries (or the starting index) writes. -/
theorem ptFold_phishTank (pt : List FeedUpdater.PTEntry) (c : List Char) :
    ∀ m : FeedUpdater.Index,
      ((∃ e, m c = some (FeedUpdater.IndexValue.phishTank e)) ∨
        (∃ e ∈ pt, FeedUpdater.ptUrl e ≠ [] ∧
          FeedUpdater.normalize_url (FeedUpdater.ptUrl e) = c)) →
      ∃ e, (pt.foldl FeedUpdater.ptStep m) c =
        some (FeedUpdater.IndexValue.phishTank e) := by
  induction pt with
  | nil =>
    intro m h
    rcases h with h | ⟨e, he, _⟩
    · exact h
    · exact absurd he (List.not_mem_nil e)
  | cons e rest ih =>
    intro m h
    rw [List.foldl_cons]
    apply ih
    rcases h with ⟨e1, he1⟩ | ⟨e1, hmem, hne, hkey⟩
    · left
      by_cases h0 : FeedUpdater.ptUrl e = []
      · exact ⟨e1, by rw [ptStep_apply, if_pos h0]; exact he1⟩
      · by_cases hc : c = FeedUpdater.normalize_url (FeedUpdater.ptUrl e)
        · exact ⟨e, by rw [ptStep_apply, if_neg h0, if_pos hc]⟩
        · exact ⟨e1, by rw [ptStep_apply, if_neg h0, if_neg hc]; exact he1⟩
    · rcases List.mem_cons.mp hmem with rfl | hmem2
      · left
        exact ⟨e1, by rw [ptStep_apply, if_neg hne, if_pos hkey.symm]⟩
      · right
        exact ⟨e1, hmem2, hne, hkey⟩

/-- The PhishTank loop does not change a key none of its entries writes. -/
theorem ptFold_no_touch (l2 : List FeedUpdater.PTEntry) (c : List Char) :
    ∀ m : FeedUpdater.Index,
      (∀ e2 ∈ l2, FeedUpdater.ptUrl e2 ≠ [] →
        FeedUpdater.normalize_url (FeedUpdater.ptUrl e2) ≠ c) →
      (l2.foldl FeedUpdater.ptStep m) c = m c := by
  induction l2 with
  | nil => intro m _; rfl
  | cons e rest ih =>
    intro m h
    rw [List.foldl_cons, ih _ (fun x hx => h x (List.mem_cons_of_mem e hx))]
    rw [ptStep_apply]
    split
    · rfl
    · next hne =>
      rw [if_neg]
      intro hc
      exact h e (List.mem_cons_self e rest) hne hc.symm

/-- C3: a canonical URL present in the primary (PhishTank) source keeps
its primary-source entry in the merged index: the OpenPhish pass cannot
change it, and a lookup returns a PhishTank-tagged entry. -/
theorem c3_primary_wins :
    ∀ (pt : List FeedUpdater.PTEntry) (op : List (List Char)) (c : List Char),
      (∃ e ∈ pt, FeedUpdater.ptUrl e ≠ [] ∧
        FeedUpdater.normalize_url (FeedUpdater.ptUrl e) = c) →
      (∃ u ∈ op, FeedUpdater.normalize_url u = c) →
      FeedUpdater.build_index pt op c = FeedUpdater.buildPrimary pt c ∧
        ∃ e, FeedUpdater.build_index pt op c =
          some (FeedUpdater.IndexValue.phishTank e) := by
  intro pt op c hpt _
  have hprim : ∃ e, FeedUpdater.buildPrimary pt c =
      some (FeedUpdater.IndexValue.phishTank e) :=
    ptFold_phishTank pt c FeedUpdater.emptyIndex (Or.inr hpt)
  have hsome : (FeedUpdater.buildPrimary pt c).isSome = true := by
    rcases hprim with ⟨e, he⟩; rw [he]; rfl
  have heq : FeedUpdater.build_index pt op c = FeedUpdater.buildPrimary pt c :=
    opFold_preserves op c (FeedUpdater.buildPrimary pt) hsome
  exact ⟨heq, by rw [heq]; exact hprim⟩

/-- C3 (witness): `http://evil.com/x` appears (modulo canonicalization) in
both feeds; the merged index holds the PhishTank entry. -/
theorem c3_primary_wins_witness :
    FeedUpdater.build_index [⟨some "http://evil.com/x".data, none, 1⟩]
        ["http://evil.com/x/".data] "http://evil.com/x".data =
      FeedUpdater.buildPrimary [⟨some "http://evil.com/x".data, none, 1⟩]
        "http://evil.com/x".data ∧
    ∃ e, FeedUpdater.build_index [⟨some "http://evil.com/x".data, none, 1⟩]
        ["http://evil.com/x/".data] "http://evil.com/x".data =
      some (FeedUpdater.IndexValue.phishTank e) :=
  c3_primary_wins [⟨some "http://evil.com/x".data, none, 1⟩]
    ["http://evil.com/x/".data] "http://evil.com/x".data
    (by decide) (by decide)

/-- C9: within the PhishTank source alone, when several entries share a
canonical URL the index keeps the last one in input order: any earlier
entries are overwritten, and no later entry writes that key again. -/
theorem c9_last_primary_entry_wins :
    ∀ (l1 l2 : List FeedUpdater.PTEntry) (e : FeedUpdater.PTEntry)
      (op : List (List Char)) (c : List Char),
      FeedUpdater.ptUrl e ≠ [] →
      FeedUpdater.normalize_url (FeedUpdater.ptUrl e) = c →
      (∀ e2 ∈ l2, FeedUpdater.ptUrl e2 ≠ [] →
        FeedUpdater.normalize_url (FeedUpdater.ptUrl e2) ≠ c) →
      FeedUpdater.build_index (l1 ++ e :: l2) op c =
        some (FeedUpdater.IndexValue.phishTank e) := by
  intro l1 l2 e op c hne hkey hrest
  have hprim : FeedUpdater.buildPrimary (l1 ++ e :: l2) c =
      some (FeedUpdater.IndexValue.phishTank e) := by
    unfold FeedUpdater.buildPrimary
    rw [List.foldl_append, List.foldl_cons]
    rw [ptFold_no_touch l2 c _ hrest]
    rw [ptStep_apply, if_neg hne, if_pos hkey.symm]
  have hsome : (FeedUpdater.buildPrimary (l1 ++ e :: l2) c).isSome = true := by
    rw [hprim]; rfl
  unfold FeedUpdater.build_index
  rw [opFold_preserves op c _ hsome, hprim]

/-- C9 (witness): two PhishTank entries canonicalize to `http://a.com`;
the index keeps the second (later) one. -/
theorem c9_last_primary_entry_wins_witness :
    FeedUpdater.build_index
        ([⟨some "http://a.com".data, none, 0⟩] ++ ⟨some "http://a.com/".data, none, 1⟩ :: [])
        [] "http://a.com".data =
      some (FeedUpdater.IndexValue.phishTank ⟨some "http://a.com/".data, none, 1⟩) :=
  c9_last_primary_entry_wins [⟨some "http://a.com".data, none, 0⟩] []
    ⟨some "http://a.com/".data, none, 1⟩ [] "http://a.com".data
    (by decide) (by decide) (by decide)

/-- C5: the cache is not stale immediately after a build (elapsed time
zero); it is stale exactly when its age exceeds the TTL; and when a stale
cache cannot be rebuilt (the download fails), `check_threat_feeds` keeps
the old cache file and serves its lookup from the old entries, returning
normally. -/
theorem c5_staleness_and_fallback :
    ∀ (mtime now : ℤ) (entries : List ThreatIntel.Entry) (url : List Char),
      ThreatIntel.cacheIsStale ⟨some (mtime, entries)⟩ mtime = false ∧
      (ThreatIntel.cacheIsStale ⟨some (mtime, entries)⟩ now = true ↔
        now - mtime > ThreatIntel.CACHE_TTL_SECONDS) ∧
      (now - mtime > ThreatIntel.CACHE_TTL_SECONDS →
        (ThreatIntel.check_threat_feeds ⟨some (mtime, entries)⟩ now none url).1 =
          ⟨some (mtime, entries)⟩ ∧
        (ThreatIntel.check_threat_feeds ⟨some (mtime, entries)⟩ now none url).2.entry =
          ThreatIntel.scanEntries (ThreatIntel.normalize_url url) entries ∧
        ((ThreatIntel.check_threat_feeds ⟨some (mtime, entries)⟩ now none url).2.found = true ↔
          (ThreatIntel.scanEntries (ThreatIntel.normalize_url url) entries).isSome = true)) := by
  intro mtime now entries url
  have hupd : ThreatIntel.update_phishtank_feed ⟨some (mtime, entries)⟩ now none =
      ⟨some (mtime, entries)⟩ := by
    unfold ThreatIntel.update_phishtank_feed
    split <;> rfl
  refine ⟨?_, ?_, ?_⟩
  · simp [ThreatIntel.cacheIsStale, ThreatIntel.CACHE_TTL_SECONDS]
  · simp [ThreatIntel.cacheIsStale]
  · intro _
    unfold ThreatIntel.check_threat_feeds
    rw [hupd]
    cases hscan : ThreatIntel.scanEntries (ThreatIntel.normalize_url url) entries with
    | none => simp [hscan]
    | some e => simp [hscan]

/-- C5 (witness): at age 100000 s (> 86400 s TTL) with an unreachable
source, the lookup of a URL cached in the old snapshot still succeeds. -/
theorem c5_staleness_and_fallback_witness :
    ThreatIntel.cacheIsStale ⟨some (0, [⟨some "http://evil.com".data, 0⟩])⟩ 0 = false ∧
    ThreatIntel.cacheIsStale ⟨some (0, [⟨some "http://evil.com".data, 0⟩])⟩ 100000 = true ∧
    (ThreatIntel.check_threat_feeds ⟨some (0, [⟨some "http://evil.com".data, 0⟩])⟩
        100000 none "http://evil.com".data).1 = ⟨some (0, [⟨some "http://evil.com".data, 0⟩])⟩ ∧
    (ThreatIntel.check_threat_feeds ⟨some (0, [⟨some "http://evil.com".data, 0⟩])⟩
        100000 none "http://evil.com".data).2.found = true := by
  have h := c5_staleness_and_fallback 0 100000 [⟨some "http://evil.com".data, 0⟩]
    "http://evil.com".data
  have h3 := h.2.2 (by decide)
  exact ⟨h.1, h.2.1.mpr (by decide), h3.1, h3.2.2.mpr (by decide)⟩

/-- C7 (counterexample): canonicalization strips all trailing slashes, not
exactly one: `http://h/a//` normalizes to `http://h/a`, not `http://h/a/`. -/
theorem c7_counterexample :
    ThreatIntel.normalize_url "http://h/a//".data = "http://h/a".data ∧
      ThreatIntel.normalize_url "http://h/a//".data ≠ "http://h/a/".data := by decide

/-- C7 (amended): the canonicalizers strip every trailing slash from the
path: the result never ends in `/`; a path with no trailing slash is
unchanged; appending any positive number of slashes does not change the
stripped result; `feed_updater`'s unconditional `rstrip('/')` computes the
same function as `threat_intel`'s guarded form; and the root paths `""`
and `"/"` both normalize to the empty path. -/
theorem c7_strip_all_trailing_slashes :
    ∀ (p : List Char) (n : ℕ),
      Url.endsWithSlash (ThreatIntel.stripPathSlash p) = false ∧
      (Url.endsWithSlash p = false → ThreatIntel.stripPathSlash p = p) ∧
      ThreatIntel.stripPathSlash (p ++ List.replicate (n + 1) '/') =
        ThreatIntel.stripPathSlash p ∧
      Url.rstripSlash p = ThreatIntel.stripPathSlash p ∧
      (ThreatIntel.stripPathSlash [] = [] ∧ ThreatIntel.stripPathSlash "/".data = [] ∧
        ThreatIntel.normalize_url "http://h/".data = ThreatIntel.normalize_url "http://h".data) := by
  intro p n
  have hd : ∀ q : List Char, Url.rstripSlash q = ThreatIntel.stripPathSlash q := by
    intro q
    unfold ThreatIntel.stripPathSlash
    by_cases h : Url.endsWithSlash q = true
    · rw [if_pos h]
    · rw [if_neg h, rstripSlash_eq_self q (by simpa using h)]
  refine ⟨?_, ?_, ?_, hd p, by decide, by decide, by decide⟩
  · rw [← hd p]; exact rstripSlash_not_endsWith p
  · intro h
    unfold ThreatIntel.stripPathSlash
    rw [if_neg (by simp [h])]
  · rw [← hd, ← hd]
    unfold Url.rstripSlash
    rw [List.reverse_append, List.reverse_replicate, dropWhile_append_all]
    intro c hc
    rw [List.mem_replicate] at hc
    simp [hc.2]

/-- C7 (witness): the amended statement instantiated at the path `/a` and
two extra trailing slashes. -/
theorem c7_strip_all_trailing_slashes_witness :
    Url.endsWithSlash (ThreatIntel.stripPathSlash "/a".data) = false ∧
    ThreatIntel.stripPathSlash "/a".data = "/a".data ∧
    ThreatIntel.stripPathSlash ("/a".data ++ List.replicate 2 '/') =
      ThreatIntel.stripPathSlash "/a".data ∧
    Url.rstripSlash "/a".data = ThreatIntel.stripPathSlash "/a".data := by
  have h := c7_strip_all_trailing_slashes "/a".data 1
  exact ⟨h.1, h.2.1 (by decide), h.2.2.1, h.2.2.2.1⟩

/-- C8: evaluating `http://192.168.1.10/login?verify=true` with the
canonical heuristic rule engine (`src/app/heuristics.py`) triggers the
IP-in-domain rule and the keyword rule with exactly `login` and `verify`
found, scores `45 ≥ 45`, and yields the suspicious verdict
(`Suspicious — Review`). -/
theorem c8_scenario :
    (Heuristics.analyze_url "http://192.168.1.10/login?verify=true".data).ipInDomain = true ∧
    (Heuristics.analyze_url "http://192.168.1.10/login?verify=true".data).keywordsFound
      = ["login".data, "verify".data] ∧
    45 ≤ (Heuristics.analyze_url "http://192.168.1.10/login?verify=true".data).score ∧
    (Heuristics.analyze_url "http://192.168.1.10/login?verify=true".data).final_verdict
      = "Suspicious — Review" := by decide

/-- C10: in the two-signal aggregation, when the heuristic signal is
unavailable (`h_norm is None`) the combined score equals the raw ML
probability with no clamping or weighting; when it is available the score
is the clamped weighted sum, so the pass-through happens in exactly the
unavailable case. -/
theorem c10_ml_passthrough :
    ∀ wMl wH prob hs : ℚ,
      Api.predictCombined wMl wH prob none = prob ∧
      Api.predictCombined wMl wH prob (some hs) =
        clamp01 (wMl * prob + wH * Api.normalizeHeuristic hs) := by
  intro _ _ _ _
  exact ⟨rfl, rfl⟩

end PhishScan
